import Mathlib

/-!
Verification development for the response-normalization pipeline of the
llm-math-solver frontend (`frontend/math-llm-frontend/app/(tabs)/index.tsx`).
The definitions below are a shallow embedding of the TypeScript helpers
`extractJsonFromText`, `sanitizeAnswerString`, `normalizeParsed` (the revision
at lines 691-852) and `cleanLatex` (lines 136-164).  JavaScript strings are
modelled as `String`/`List Char`, JSON/JS values as the inductive `JSValue`
(numbers as exact rationals), and `null`/`undefined` results as `Option`.
-/

set_option maxRecDepth 20000

/-! ### Character classes and basic string helpers -/

/-- The backslash character. -/
def bsC : Char := '\\'

/-- The backtick character (code 96). -/
def btC : Char := Char.ofNat 96

/-- The single-quote character (code 39). -/
def sqC : Char := Char.ofNat 39

/-- The double-quote character (code 34). -/
def dqC : Char := Char.ofNat 34

/-- The left curly brace (code 123). -/
def lbC : Char := Char.ofNat 123

/-- The right curly brace (code 125). -/
def rbC : Char := Char.ofNat 125

/-- JavaScript whitespace (the class matched by `\s`, `String.prototype.trim`
and `Number()`'s surrounding-whitespace rule): WhiteSpace plus LineTerminator. -/
def isJsWS (c : Char) : Bool :=
  c.toNat = 32 || c.toNat = 9 || c.toNat = 10 || c.toNat = 13 ||
  c.toNat = 11 || c.toNat = 12 || c.toNat = 160 || c.toNat = 0x1680 ||
  (0x2000 ≤ c.toNat && c.toNat ≤ 0x200a) || c.toNat = 0x2028 ||
  c.toNat = 0x2029 || c.toNat = 0x202f || c.toNat = 0x205f ||
  c.toNat = 0x3000 || c.toNat = 0xfeff

/-- Drop a trailing run of characters satisfying `p`. -/
def dropTrailWhile (p : Char → Bool) (l : List Char) : List Char :=
  (l.reverse.dropWhile p).reverse

/-- JavaScript `String.prototype.trim` on character lists. -/
def jsTrimL (l : List Char) : List Char :=
  dropTrailWhile isJsWS (l.dropWhile isJsWS)

/-- JavaScript `String.prototype.trim`. -/
def jsTrim (s : String) : String := String.mk (jsTrimL s.data)

/-! ### JavaScript/JSON values -/

/-- A JavaScript value of the shapes the normalizer manipulates (JSON values).
Numbers are modelled as exact rationals. -/
inductive JSValue where
  | jnull
  | jbool (b : Bool)
  | jnum (q : ℚ)
  | jstr (s : String)
  | jarr (elems : List JSValue)
  | jobj (fields : List (String × JSValue))

/-- JavaScript truthiness of a value. -/
def jsTruthy : JSValue → Bool
  | .jnull => false
  | .jbool b => b
  | .jnum q => decide (q ≠ 0)
  | .jstr s => decide (s ≠ "")
  | .jarr _ => true
  | .jobj _ => true

/-- `typeof v === "object"` for non-null values: arrays and plain objects. -/
def isObjLike : JSValue → Bool
  | .jarr _ => true
  | .jobj _ => true
  | _ => false

/-- Property lookup on an object's field list (keys are unique, see
`objInsert`); `none` models `undefined`. -/
def getField (fs : List (String × JSValue)) (k : String) : Option JSValue :=
  (fs.find? (fun p => p.1 == k)).map (·.2)

/-- Property access `v[k]`, yielding `undefined` (`none`) on non-objects. -/
def objGet : JSValue → String → Option JSValue
  | .jobj fs, k => getField fs k
  | _, _ => none

/-- Optional-chaining property access `o?.[k]` after a possibly-undefined base. -/
def optGet (o : Option JSValue) (k : String) : Option JSValue :=
  o.bind (fun v => objGet v k)

/-- Collapse JavaScript `null` to `none`, as the `??` operator sees it. -/
def nn (o : Option JSValue) : Option JSValue :=
  match o with
  | some .jnull => none
  | x => x

/-- Insert a key/value pair into an object's field list, JavaScript style:
a duplicate key keeps its original position but takes the new value. -/
def objInsert (fs : List (String × JSValue)) (k : String) (v : JSValue) :
    List (String × JSValue) :=
  if fs.any (fun p => p.1 == k) then
    fs.map (fun p => if p.1 == k then (k, v) else p)
  else fs ++ [(k, v)]

/-! ### JSON.parse -/

/-- JSON whitespace (only space, tab, line feed, carriage return). -/
def isJsonWS (c : Char) : Bool :=
  c = ' ' || c = '\t' || c = '\n' || c = '\r'

/-- Skip JSON whitespace. -/
def skipJsonWS (l : List Char) : List Char := l.dropWhile isJsonWS

/-- Value of a hexadecimal digit. -/
def hexVal (c : Char) : Option Nat :=
  if 48 ≤ c.toNat ∧ c.toNat ≤ 57 then some (c.toNat - 48)
  else if 97 ≤ c.toNat ∧ c.toNat ≤ 102 then some (c.toNat - 87)
  else if 65 ≤ c.toNat ∧ c.toNat ≤ 70 then some (c.toNat - 55)
  else none

/-- Parse the body of a JSON string after the opening quote; returns the
decoded characters and the input after the closing quote.  Lone surrogate
escapes are mapped to U+FFFD (surrogate pairs are not recombined; no
theorem below exercises them). -/
def parseJsonStringBody : Nat → List Char → Option (List Char × List Char)
  | 0, _ => none
  | _, [] => none
  | fuel+1, c :: rest =>
    if c = dqC then some ([], rest)
    else if c = bsC then
      match rest with
      | [] => none
      | e :: rest2 =>
        let step (ch : Char) (tl : List Char) : Option (List Char × List Char) :=
          match parseJsonStringBody fuel tl with
          | some (s, r) => some (ch :: s, r)
          | none => none
        if e = dqC then step dqC rest2
        else if e = bsC then step bsC rest2
        else if e = '/' then step '/' rest2
        else if e = 'b' then step (Char.ofNat 8) rest2
        else if e = 'f' then step (Char.ofNat 12) rest2
        else if e = 'n' then step '\n' rest2
        else if e = 'r' then step '\r' rest2
        else if e = 't' then step '\t' rest2
        else if e = 'u' then
          match rest2 with
          | h1 :: h2 :: h3 :: h4 :: rest3 =>
            match hexVal h1, hexVal h2, hexVal h3, hexVal h4 with
            | some a, some b, some c2, some d =>
              let n := ((a * 16 + b) * 16 + c2) * 16 + d
              let ch := if 0xd800 ≤ n ∧ n ≤ 0xdfff then Char.ofNat 0xfffd
                        else Char.ofNat n
              step ch rest3
            | _, _, _, _ => none
          | _ => none
        else none
    else if c.toNat < 32 then none
    else
      match parseJsonStringBody fuel rest with
      | some (s, r) => some (c :: s, r)
      | none => none

/-- Split off a leading run of ASCII digits. -/
def takeDigits (l : List Char) : List Char × List Char :=
  (l.takeWhile Char.isDigit, l.dropWhile Char.isDigit)

/-- Natural number denoted by a list of ASCII digits. -/
def digitsToNat (ds : List Char) : Nat :=
  ds.foldl (fun a c => a * 10 + (c.toNat - 48)) 0

/-- Powers of ten as rationals (explicit recursion keeps kernel reduction
cheap). -/
def pow10N : Nat → ℚ
  | 0 => 1
  | n+1 => 10 * pow10N n

/-- Scale a rational by a signed power of ten. -/
def scaleByExp (q : ℚ) (e : Int) : ℚ :=
  match e with
  | .ofNat n => q * pow10N n
  | .negSucc n => q / pow10N (n + 1)

/-- Parse an optional JSON fraction part `.digits`. -/
def parseFrac (l : List Char) : Option (ℚ × List Char) :=
  match l with
  | p :: tl =>
    if p = '.' then
      let fs := tl.takeWhile Char.isDigit
      let l2 := tl.dropWhile Char.isDigit
      if fs = [] then none
      else some ((digitsToNat fs : ℚ) / pow10N fs.length, l2)
    else some (0, l)
  | [] => some (0, l)

/-- Parse an optional JSON exponent part `e[+-]digits`. -/
def parseExp (l : List Char) : Option (Int × List Char) :=
  match l with
  | e :: tl =>
    if e = 'e' ∨ e = 'E' then
      let (sgn, tl2) : Bool × List Char :=
        match tl with
        | s :: tl3 => if s = '-' then (true, tl3)
                      else if s = '+' then (false, tl3) else (false, tl)
        | [] => (false, tl)
      let ds := tl2.takeWhile Char.isDigit
      let l2 := tl2.dropWhile Char.isDigit
      if ds = [] then none
      else some ((if sgn then -(digitsToNat ds : Int) else (digitsToNat ds : Int)), l2)
    else some (0, l)
  | [] => some (0, l)

/-- Parse a JSON number literal. -/
def parseJsonNumber (l : List Char) : Option (ℚ × List Char) :=
  let (neg, l1) : Bool × List Char :=
    match l with
    | c :: tl => if c = '-' then (true, tl) else (false, l)
    | [] => (false, l)
  let ds := l1.takeWhile Char.isDigit
  let l2 := l1.dropWhile Char.isDigit
  if ds = [] then none
  else if 1 < ds.length ∧ ds.headD '0' = '0' then none
  else
    match l2 with
    | [] => some ((if neg then -(digitsToNat ds : ℚ) else (digitsToNat ds : ℚ)), [])
    | p :: _ =>
      if p ≠ '.' ∧ p ≠ 'e' ∧ p ≠ 'E' then
        some ((if neg then -(digitsToNat ds : ℚ) else (digitsToNat ds : ℚ)), l2)
      else
        match parseFrac l2 with
        | none => none
        | some (fr, l3) =>
          match parseExp l3 with
          | none => none
          | some (ex, l4) =>
            let mag : ℚ := scaleByExp ((digitsToNat ds : ℚ) + fr) ex
            some ((if neg then -mag else mag), l4)

mutual

/-- Parse a JSON value (fuelled recursive-descent; `jsonParse` supplies ample
fuel, so exhaustion never occurs on real inputs). -/
def parseJsonValue : Nat → List Char → Option (JSValue × List Char)
  | 0, _ => none
  | fuel+1, l0 =>
    let l := skipJsonWS l0
    match l with
    | [] => none
    | c :: rest =>
      if c = lbC then
        match parseJsonMembers fuel (skipJsonWS rest) true with
        | some (ps, r) =>
          some (.jobj (ps.foldl (fun a p => objInsert a p.1 p.2) []), r)
        | none => none
      else if c = '[' then
        match parseJsonElems fuel (skipJsonWS rest) true with
        | some (vs, r) => some (.jarr vs, r)
        | none => none
      else if c = dqC then
        match parseJsonStringBody fuel rest with
        | some (s, r) => some (.jstr (String.mk s), r)
        | none => none
      else if List.isPrefixOf "true".data l then some (.jbool true, l.drop 4)
      else if List.isPrefixOf "false".data l then some (.jbool false, l.drop 5)
      else if List.isPrefixOf "null".data l then some (.jnull, l.drop 4)
      else
        match parseJsonNumber l with
        | some (q, r) => some (.jnum q, r)
        | none => none

/-- Parse the members of a JSON object after the opening brace. -/
def parseJsonMembers : Nat → List Char → Bool →
    Option (List (String × JSValue) × List Char)
  | 0, _, _ => none
  | fuel+1, l, first =>
    match l with
    | [] => none
    | c :: rest =>
      if first ∧ c = rbC then some ([], rest)
      else if c = dqC then
        match parseJsonStringBody fuel rest with
        | some (ks, r) =>
          match skipJsonWS r with
          | c2 :: rest2 =>
            if c2 = ':' then
              match parseJsonValue fuel rest2 with
              | some (v, r2) =>
                match skipJsonWS r2 with
                | c3 :: rest3 =>
                  if c3 = rbC then some ([(String.mk ks, v)], rest3)
                  else if c3 = ',' then
                    match parseJsonMembers fuel (skipJsonWS rest3) false with
                    | some (ps, rr) => some ((String.mk ks, v) :: ps, rr)
                    | none => none
                  else none
                | [] => none
              | none => none
            else none
          | [] => none
        | none => none
      else none

/-- Parse the elements of a JSON array after the opening bracket. -/
def parseJsonElems : Nat → List Char → Bool →
    Option (List JSValue × List Char)
  | 0, _, _ => none
  | fuel+1, l, first =>
    match l with
    | [] => none
    | c :: _ =>
      if first ∧ c = ']' then some ([], l.drop 1)
      else
        match parseJsonValue fuel l with
        | some (v, r) =>
          match skipJsonWS r with
          | c2 :: rest2 =>
            if c2 = ']' then some ([v], rest2)
            else if c2 = ',' then
              match parseJsonElems fuel (skipJsonWS rest2) false with
              | some (vs, rr) => some (v :: vs, rr)
              | none => none
            else none
          | [] => none
        | none => none

end

/-- `JSON.parse`: parse a complete JSON text (surrounding whitespace allowed),
returning `none` where JavaScript would throw a `SyntaxError`. -/
def jsonParse (s : String) : Option JSValue :=
  match parseJsonValue (2 * s.data.length + 8) s.data with
  | some (v, r) => if skipJsonWS r = [] then some v else none
  | none => none

/-! ### JSON.stringify and String() -/

/-- Decimal digits of the fractional expansion of `r / d` (fuelled; JavaScript
prints shortest-roundtrip floats, which exact rationals can only approximate;
no theorem below depends on non-integer formatting). -/
def fracDigits : Nat → Nat → Nat → String
  | 0, _, _ => ""
  | _, 0, _ => ""
  | fuel+1, r, d =>
    let r10 := r * 10
    toString (r10 / d) ++ fracDigits fuel (r10 % d) d

/-- Decimal rendering of a rational, JavaScript style for integers. -/
def numToString (q : ℚ) : String :=
  let sign := if q < 0 then "-" else ""
  let n := q.num.natAbs
  let ip := n / q.den
  let rem := n % q.den
  sign ++ toString ip ++ (if rem = 0 then "" else "." ++ fracDigits 20 rem q.den)

/-- Escape one character for a JSON string literal. -/
def escapeJsonChar (c : Char) : List Char :=
  if c = dqC then [bsC, dqC]
  else if c = bsC then [bsC, bsC]
  else if c = '\n' then [bsC, 'n']
  else if c = '\r' then [bsC, 'r']
  else if c = '\t' then [bsC, 't']
  else if c.toNat = 8 then [bsC, 'b']
  else if c.toNat = 12 then [bsC, 'f']
  else if c.toNat < 32 then
    [bsC, 'u', '0', '0',
     (if c.toNat / 16 < 10 then Char.ofNat (48 + c.toNat / 16)
      else Char.ofNat (87 + c.toNat / 16)),
     (if c.toNat % 16 < 10 then Char.ofNat (48 + c.toNat % 16)
      else Char.ofNat (87 + c.toNat % 16))]
  else [c]

/-- JSON string literal for `s`, quotes included. -/
def quoteJson (s : String) : String :=
  String.mk (dqC :: (s.data.flatMap escapeJsonChar) ++ [dqC])

mutual

/-- `JSON.stringify` (no indentation argument, as in the source). -/
def jsonStringify : JSValue → String
  | .jnull => "null"
  | .jbool true => "true"
  | .jbool false => "false"
  | .jnum q => numToString q
  | .jstr s => quoteJson s
  | .jarr xs => "[" ++ String.intercalate "," (stringifyElems xs) ++ "]"
  | .jobj fs =>
    "\x7b" ++ String.intercalate "," (stringifyFields fs) ++ "\x7d"

/-- Stringify array elements in order. -/
def stringifyElems : List JSValue → List String
  | [] => []
  | x :: xs => jsonStringify x :: stringifyElems xs

/-- Stringify object fields in order. -/
def stringifyFields : List (String × JSValue) → List String
  | [] => []
  | p :: ps => (quoteJson p.1 ++ ":" ++ jsonStringify p.2) :: stringifyFields ps

end

mutual

/-- JavaScript `String(v)` conversion. -/
def jsToString : JSValue → String
  | .jnull => "null"
  | .jbool true => "true"
  | .jbool false => "false"
  | .jnum q => numToString q
  | .jstr s => s
  | .jarr xs => String.intercalate "," (arrElemStrings xs)
  | .jobj _ => "[object Object]"

/-- `Array.prototype.toString` element strings (`null` renders empty). -/
def arrElemStrings : List JSValue → List String
  | [] => []
  | .jnull :: xs => "" :: arrElemStrings xs
  | x :: xs => jsToString x :: arrElemStrings xs

end

/-! ### Number() string conversion -/

/-- A JavaScript number that a successful `Number(string)` conversion can
produce: an exact rational or an infinity (`none` at use sites means `NaN`). -/
inductive JSNumV where
  | fin (q : ℚ)
  | posInf
  | negInf

/-- Digit value in a given radix (ECMAScript non-decimal integer literals). -/
def radixDigit (base : Nat) (c : Char) : Option Nat :=
  match hexVal c with
  | some v => if v < base then some v else none
  | none => none

/-- Parse a complete non-decimal integer literal body (after `0x`/`0o`/`0b`). -/
def parseRadixBody (base : Nat) (l : List Char) : Option ℚ :=
  match l with
  | [] => none
  | _ =>
    let step (a : Option Nat) (c : Char) : Option Nat :=
      match a, radixDigit base c with
      | some n, some v => some (n * base + v)
      | _, _ => none
    match l.foldl step (some 0) with
    | some n => some (n : ℚ)
    | none => none

/-- Parse the optional exponent of a `Number()` decimal literal; the whole
remaining input must be consumed. -/
def numExpTail (l : List Char) : Option Int :=
  match l with
  | [] => some 0
  | e :: tl =>
    if e = 'e' ∨ e = 'E' then
      let (sgn, tl2) : Bool × List Char :=
        match tl with
        | s :: tl3 => if s = '-' then (true, tl3)
                      else if s = '+' then (false, tl3) else (false, tl)
        | [] => (false, tl)
      let ds := tl2.takeWhile Char.isDigit
      let l2 := tl2.dropWhile Char.isDigit
      if ds = [] ∨ l2 ≠ [] then none
      else some (if sgn then -(digitsToNat ds : Int) else (digitsToNat ds : Int))
    else none

/-- Parse an unsigned `StrUnsignedDecimalLiteral` (digits, optional fraction,
optional exponent, full consumption required). -/
def parseUnsignedDec (l : List Char) : Option ℚ :=
  let ds := l.takeWhile Char.isDigit
  let l2 := l.dropWhile Char.isDigit
  if ds = [] then
    match l2 with
    | p :: tl =>
      if p = '.' then
        let fs := tl.takeWhile Char.isDigit
        let l3 := tl.dropWhile Char.isDigit
        if fs = [] then none
        else
          match numExpTail l3 with
          | some ex =>
            some (scaleByExp ((digitsToNat fs : ℚ) / pow10N fs.length) ex)
          | none => none
      else none
    | [] => none
  else
    match l2 with
    | p :: tl =>
      if p = '.' then
        let fs := tl.takeWhile Char.isDigit
        let l3 := tl.dropWhile Char.isDigit
        match numExpTail l3 with
        | some ex =>
          some (scaleByExp ((digitsToNat ds : ℚ) + (digitsToNat fs : ℚ) / pow10N fs.length) ex)
        | none => none
      else
        match numExpTail l2 with
        | some ex => some (scaleByExp (digitsToNat ds : ℚ) ex)
        | none => none
    | [] => some (digitsToNat ds : ℚ)

/-- JavaScript `Number(string)`; `none` models `NaN`. -/
def jsToNumber (s : String) : Option JSNumV :=
  let l := jsTrimL s.data
  if l = [] then some (.fin 0)
  else
    match l with
    | c0 :: c1 :: rest =>
      if c0 = '0' ∧ (c1 = 'x' ∨ c1 = 'X') then
        (parseRadixBody 16 rest).map .fin
      else if c0 = '0' ∧ (c1 = 'o' ∨ c1 = 'O') then
        (parseRadixBody 8 rest).map .fin
      else if c0 = '0' ∧ (c1 = 'b' ∨ c1 = 'B') then
        (parseRadixBody 2 rest).map .fin
      else
        let (neg, l1) : Bool × List Char :=
          if c0 = '-' then (true, c1 :: rest)
          else if c0 = '+' then (false, c1 :: rest)
          else (false, l)
        if l1 = "Infinity".data then some (if neg then .negInf else .posInf)
        else
          match parseUnsignedDec l1 with
          | some q => some (.fin (if neg then -q else q))
          | none => none
    | [c0] =>
      if c0.isDigit then some (.fin ((digitsToNat [c0] : ℚ)))
      else none
    | [] => none

/-! ### extractJsonFromText (lines 691-723) -/

theorem length_dropWhile_le (p : Char → Bool) (l : List Char) :
    (l.dropWhile p).length ≤ l.length := by
  induction l with
  | nil => simp [List.dropWhile]
  | cons c tl ih =>
    by_cases h : p c
    · simp [List.dropWhile, h]; omega
    · simp [List.dropWhile, h]

mutual

/-- Remove every `\n+` run, JavaScript `replace(/\n+/g, " ")`. -/
def collapseLFruns : List Char → List Char
  | [] => []
  | c :: rest =>
    if c = '\n' then ' ' :: skipLFs rest
    else c :: collapseLFruns rest

/-- Consume the remainder of a line-feed run. -/
def skipLFs : List Char → List Char
  | [] => []
  | c :: rest =>
    if c = '\n' then skipLFs rest
    else c :: collapseLFruns rest

end

/-- Remove every literal `\n` escape pair, JavaScript `replace(/\\n/g, "")`. -/
def removeBnPairs : List Char → List Char
  | c1 :: c2 :: rest =>
    if c1 = bsC ∧ c2 = 'n' then removeBnPairs rest
    else c1 :: removeBnPairs (c2 :: rest)
  | l => l

/-- The substring from the first <code>&#123;</code> to the last
<code>&#125;</code>, when the latter strictly follows the former. -/
def braceSubL (l : List Char) : Option (List Char) :=
  match l.findIdx? (fun c => c == lbC), l.reverse.findIdx? (fun c => c == rbC) with
  | some s, some j =>
    let e := l.length - 1 - j
    if s < e then some ((l.drop s).take (e - s + 1)) else none
  | _, _ => none

/-- Case-insensitive character comparison (ASCII, as the regex `i` flag). -/
def ciEq (a b : Char) : Bool := a.toLower == b.toLower

/-- Consume an optional `json` tag (case-insensitively when `ci`). -/
def dropJsonTag (ci : Bool) (l : List Char) : List Char :=
  match l with
  | c1 :: c2 :: c3 :: c4 :: rest =>
    if ci then
      if ciEq c1 'j' ∧ ciEq c2 's' ∧ ciEq c3 'o' ∧ ciEq c4 'n' then rest
      else c1 :: c2 :: c3 :: c4 :: rest
    else
      if c1 = 'j' ∧ c2 = 's' ∧ c3 = 'o' ∧ c4 = 'n' then rest
      else c1 :: c2 :: c3 :: c4 :: rest
  | l2 => l2

/-- Consume an optional `json` tag then an optional line feed (the
`(?:json)?\n?` part of the fence patterns). -/
def fenceTagTail (ci : Bool) (l : List Char) : List Char :=
  match dropJsonTag ci l with
  | c :: tl => if c = '\n' then tl else c :: tl
  | [] => []

/-- Lazy search for the closing triple backtick; returns the captured
characters before it. -/
def closeSearch : List Char → Option (List Char)
  | c1 :: c2 :: c3 :: rest =>
    if c1 = btC ∧ c2 = btC ∧ c3 = btC then some []
    else
      match closeSearch (c2 :: c3 :: rest) with
      | some cap => some (c1 :: cap)
      | none => none
  | _ => none

/-- Try to match the fence regex at the head of the input. -/
def tryFenceAt (l : List Char) : Option (List Char) :=
  match l with
  | c1 :: c2 :: c3 :: rest =>
    if c1 = btC ∧ c2 = btC ∧ c3 = btC then closeSearch (fenceTagTail true rest)
    else none
  | _ => none

/-- First match of «triple backtick, optional `json`, optional newline, lazy
capture, triple backtick» (the rev-2 fence regex, `i` flag). -/
def findFence : List Char → Option (List Char)
  | [] => none
  | c :: rest =>
    match tryFenceAt (c :: rest) with
    | some cap => some cap
    | none => findFence rest

/-- The first-brace/last-brace fallback of `extractJsonFromText`, including
its newline-cleaning retry. -/
def braceWhole (l : List Char) : Option JSValue :=
  match braceSubL l with
  | some cand =>
    match jsonParse (String.mk cand) with
    | some v => some v
    | none => jsonParse (String.mk (removeBnPairs (collapseLFruns cand)))
  | none => none

/-- `extractJsonFromText` (lines 691-723): prefer the fenced block's content,
fall back to the brace-substring of the whole text. -/
def extractJsonFromText (txt : String) : Option JSValue :=
  if txt = "" then none
  else
    match findFence txt.data with
    | some cap =>
      if cap = [] then braceWhole txt.data
      else
        let cand := jsTrimL cap
        match jsonParse (String.mk cand) with
        | some v => some v
        | none =>
          match braceSubL cand with
          | some sub =>
            match jsonParse (String.mk sub) with
            | some v => some v
            | none => braceWhole txt.data
          | none => braceWhole txt.data
    | none => braceWhole txt.data

/-! ### sanitizeAnswerString (lines 725-731) -/

/-- Is `c` one of the wrapping quote characters `"`, `'`, backtick? -/
def isQuoteC (c : Char) : Bool := c = dqC || c = sqC || c = btC

/-- Strip a leading and a trailing run of quote characters
(`replace(/^["'`]+|["'`]+$/g, "")`). -/
def stripQuotesEnds (l : List Char) : List Char :=
  dropTrailWhile isQuoteC (l.dropWhile isQuoteC)

mutual

/-- Collapse every run of the character `t` to a single occurrence. -/
def collapseRunsOf (t : Char) : List Char → List Char
  | [] => []
  | c :: rest =>
    if c = t then t :: skipRunOf t rest
    else c :: collapseRunsOf t rest

/-- Consume the remainder of a `t` run. -/
def skipRunOf (t : Char) : List Char → List Char
  | [] => []
  | c :: rest =>
    if c = t then skipRunOf t rest
    else c :: collapseRunsOf t rest

end

/-- `sanitizeAnswerString`: Unicode minus to hyphen, collapse hyphen runs,
trim, strip wrapping quotes. -/
def sanitizeAnswerString (s : String) : String :=
  let s1 := s.data.map (fun c => if c.toNat = 0x2212 then '-' else c)
  let s2 := collapseRunsOf '-' s1
  String.mk (stripQuotesEnds (jsTrimL s2))

/-! ### Steps splitting (lines 827-847) -/

/-- Split on `/\r?\n/`. -/
def splitLinesGo (cur : List Char) : List Char → List (List Char)
  | [] => [cur.reverse]
  | [c] =>
    if c = '\n' then [cur.reverse, []]
    else [(c :: cur).reverse]
  | c :: n :: tl =>
    if c = '\r' ∧ n = '\n' then cur.reverse :: splitLinesGo [] tl
    else if c = '\n' then cur.reverse :: splitLinesGo [] (n :: tl)
    else splitLinesGo (c :: cur) (n :: tl)

/-- Split a string on line breaks (`split(/\r?\n/)`). -/
def splitLines (l : List Char) : List (List Char) := splitLinesGo [] l

/-- Match `\d+('.'|')')\s` at the head of the input, returning the rest. -/
def numSepTail (l : List Char) : Option (List Char) :=
  let ds := l.takeWhile Char.isDigit
  if ds = [] then none
  else
    match l.drop ds.length with
    | p :: w :: tl => if (p = '.' ∨ p = ')') ∧ isJsWS w then some tl else none
    | _ => none

theorem numSepTail_length {l tl : List Char} (h : numSepTail l = some tl) :
    tl.length < l.length := by
  unfold numSepTail at h
  by_cases hd : l.takeWhile Char.isDigit = []
  · simp [hd] at h
  · simp [hd] at h
    rcases hdrop : l.drop (l.takeWhile Char.isDigit).length with _ | ⟨p, _ | ⟨w, tl2⟩⟩ <;>
      simp [hdrop] at h
    rcases h with ⟨-, rfl⟩
    have h1 : (l.drop (l.takeWhile Char.isDigit).length).length ≤ l.length := by
      simp
    have h2 : 0 < (l.takeWhile Char.isDigit).length := by
      cases hq : l.takeWhile Char.isDigit with
      | nil => exact absurd hq hd
      | cons a b => simp [hq]
    have h3 : (l.drop (l.takeWhile Char.isDigit).length).length =
        l.length - (l.takeWhile Char.isDigit).length := by simp
    rw [hdrop] at h3
    simp at h3
    omega

/-- Split on `/(?:\n|(?:\d+\.\s)|(?:\d+\)\s))/` (fuelled; the wrapper
supplies fuel exceeding the input length, so exhaustion is unreachable). -/
def splitByNumGo : Nat → List Char → List Char → List (List Char)
  | 0, cur, _ => [cur.reverse]
  | _+1, cur, [] => [cur.reverse]
  | fuel+1, cur, c :: rest =>
    if c = '\n' then cur.reverse :: splitByNumGo fuel [] rest
    else if c.isDigit then
      match numSepTail (c :: rest) with
      | some tl => cur.reverse :: splitByNumGo fuel [] tl
      | none => splitByNumGo fuel (c :: cur) rest
    else splitByNumGo fuel (c :: cur) rest

/-- Split a string on numbered-bullet separators. -/
def splitByNumber (l : List Char) : List (List Char) :=
  splitByNumGo (l.length + 1) [] l

mutual

/-- Split on `/(?<=\.)\s+/`: whitespace runs preceded by a period. -/
def splitSentGo (prevDot : Bool) (cur : List Char) : List Char → List (List Char)
  | [] => [cur.reverse]
  | c :: rest =>
    if prevDot ∧ isJsWS c then cur.reverse :: splitSentSkip rest
    else splitSentGo (c = '.') (c :: cur) rest

/-- Consume the remainder of a separating whitespace run. -/
def splitSentSkip : List Char → List (List Char)
  | [] => [[]]
  | c :: rest =>
    if isJsWS c then splitSentSkip rest
    else splitSentGo (c = '.') [c] rest

end

/-- Split a string into sentences. -/
def splitSentences (l : List Char) : List (List Char) := splitSentGo false [] l

/-- Strip a leading code-fence opener (case-sensitive `json` tag, as in the
steps regex `/^```(?:json)?\n?|```$/g`). -/
def stripLeadFence (l : List Char) : List Char :=
  match l with
  | c1 :: c2 :: c3 :: rest =>
    if c1 = btC ∧ c2 = btC ∧ c3 = btC then fenceTagTail false rest else l
  | _ => l

/-- Strip one trailing triple backtick. -/
def stripTrailTicks (l : List Char) : List Char :=
  match l.reverse with
  | c1 :: c2 :: c3 :: rest =>
    if c1 = btC ∧ c2 = btC ∧ c3 = btC then rest.reverse else l
  | _ => l

/-- The steps-string fence stripping `t.replace(/^```(?:json)?\n?|```$/g, "")`. -/
def stripStepFences (l : List Char) : List Char :=
  stripTrailTicks (stripLeadFence l)

/-- Turn a string-valued `steps` into the displayed list: lines, else numbered
bullets, else sentences, else the whole string. -/
def stepsFromString (s : String) : List String :=
  let t := stripStepFences (jsTrimL s.data)
  let lines := ((splitLines t).map jsTrimL).filter (fun x => x ≠ [])
  if lines.length ≤ 1 then
    let byNumber := ((splitByNumber t).map jsTrimL).filter (fun x => x ≠ [])
    if 1 < byNumber.length then byNumber.map String.mk
    else
      let sentences := ((splitSentences t).map jsTrimL).filter (fun x => x ≠ [])
      if 1 < sentences.length then sentences.map String.mk
      else [String.mk t]
  else lines.map String.mk

/-! ### normalizeParsed (lines 733-852) -/

/-- Truthiness of a possibly-undefined value (`none` models `undefined`). -/
def optValTruthy (o : Option JSValue) : Bool :=
  match o with
  | some v => jsTruthy v
  | none => false

/-- Truthiness of the optional `rawText` argument. -/
def optStrTruthy : Option String → Bool
  | some s => decide (s ≠ "")
  | none => false

/-- Resolve an ordered list of alias keys on an object, `??`-style: the first
key holding a non-nullish value wins. -/
def aliasChain (p : JSValue) : List String → Option JSValue
  | [] => none
  | k :: rest => nn (objGet p k) <|> aliasChain p rest

/-- The `latex` alias list (lines 768-776). -/
def latexAliasOf (p : JSValue) : Option JSValue :=
  aliasChain p ["latex", "Latex", "expression", "problem", "question", "math", "formula"]

/-- The `answer` alias list (lines 778-786). -/
def answerAliasOf (p : JSValue) : Option JSValue :=
  aliasChain p ["answer", "Answer", "solution", "result", "final", "answer_text", "answerText"]

/-- The `steps` alias list (lines 800-809). -/
def stepsAliasOf (p : JSValue) : Option JSValue :=
  aliasChain p ["steps", "Steps", "step-by-step", "explanation", "explanations",
    "instructions", "solution_steps", "details"]

/-- The `notes` alias list (line 849). -/
def notesAliasOf (p : JSValue) : Option JSValue :=
  aliasChain p ["notes", "note", "comments"]

/-- First element of a `choices` array, when `choices` is a non-empty array. -/
def choicesFirst (p : JSValue) : Option JSValue :=
  match objGet p "choices" with
  | some (.jarr (x :: _)) => some x
  | _ => none

/-- The envelope candidate message
`c0?.message?.content ?? c0?.message ?? c0?.text ?? parsed.message?.content ?? null`
(lines 750-751). -/
def envCandidateMsg (p : JSValue) : Option JSValue :=
  let c0 := choicesFirst p
  nn (optGet (optGet c0 "message") "content") <|>
    nn (optGet c0 "message") <|>
      nn (optGet c0 "text") <|>
        nn (optGet (objGet p "message") "content")

/-- A final `answer` value: a JavaScript value, or an infinity produced by
numeric coercion. -/
inductive AnsVal where
  | v (x : JSValue)
  | posInf
  | negInf

/-- Repackage a `Number()` result as an answer value. -/
def ansOfNum : JSNumV → AnsVal
  | .fin q => .v (.jnum q)
  | .posInf => .posInf
  | .negInf => .negInf

/-- The object-valued answer step (lines 788-792): prefer `.value`, then
`.text`, else `JSON.stringify`. -/
def answerObjStep (o : Option JSValue) : Option JSValue :=
  match o with
  | some x =>
    if isObjLike x then
      match nn (objGet x "value") with
      | some w => some w
      | none =>
        match nn (objGet x "text") with
        | some w => some w
        | none => some (.jstr (jsonStringify x))
    else o
  | none => none

/-- The string-valued answer step (lines 794-798): sanitize, then coerce via
`Number()` unless that yields `NaN`. -/
def answerCoerce (o : Option JSValue) : Option AnsVal :=
  match o with
  | some (.jstr s) =>
    let c := sanitizeAnswerString s
    match jsToNumber c with
    | some n => some (ansOfNum n)
    | none => some (.v (.jstr c))
  | some x => some (.v x)
  | none => none

/-- The choices/message steps fallback (lines 811-822). -/
def stepsFallback (p : JSValue) (st : Option JSValue) : Option JSValue :=
  let choicesOK : Bool :=
    match objGet p "choices" with
    | some (.jarr (_ :: _)) => true
    | _ => false
  if ¬ optValTruthy st ∧ choicesOK then
    let c : JSValue :=
      match objGet p "choices" with
      | some (.jarr (x :: _)) => x
      | _ => .jnull
    let msg : JSValue :=
      (nn (optGet (objGet c "message") "content") <|> nn (objGet c "message") <|>
        nn (objGet c "text")).getD c
    match msg with
    | .jstr m =>
      match extractJsonFromText m with
      | some j => if jsTruthy j then st else some (.jstr m)
      | none => some (.jstr m)
    | _ => st
  else
    if ¬ optValTruthy st ∧ optValTruthy (objGet p "message") ∧
        optValTruthy (optGet (objGet p "message") "content") then
      match optGet (objGet p "message") "content" with
      | some v => some v
      | none => st
    else st

/-- The `raw`/`raw_text` steps fallback (lines 824-825). -/
def rawFallback (p : JSValue) (st : Option JSValue) : Option JSValue :=
  let st1 := if ¬ optValTruthy st ∧ optValTruthy (objGet p "raw")
             then objGet p "raw" else st
  if ¬ optValTruthy st1 ∧ optValTruthy (objGet p "raw_text")
  then objGet p "raw_text" else st1

/-- An array element of `steps`: strings pass through, others are
JSON-encoded (line 829). -/
def stepsElemString : JSValue → String
  | .jstr s => s
  | v => jsonStringify v

/-- Convert the resolved `steps` source to the final list (lines 827-847). -/
def stepsArrOf (st : Option JSValue) : Option (List String) :=
  match st with
  | some (.jarr xs) => some (xs.map stepsElemString)
  | some (.jstr s) => some (stepsFromString s)
  | _ => none

/-- The normalized result record (`LLMResult` in the source). -/
structure LLMResult where
  latex : Option JSValue
  answer : Option AnsVal
  steps : Option (List String)
  notes : Option JSValue

/-- The body of `normalizeParsed` after its early-null guard (lines 737-851). -/
def normalizeCore (parsedIn : JSValue) (rawText : Option String) : LLMResult :=
  let parsed1 : JSValue :=
    match parsedIn with
    | .jstr s =>
      match extractJsonFromText s with
      | some v =>
        if jsTruthy v then v
        else
          match jsonParse s with
          | some w => w
          | none => .jstr s
      | none =>
        match jsonParse s with
        | some w => w
        | none => .jstr s
    | v => v
  let parsed2 : JSValue :=
    if jsTruthy parsed1 ∧ isObjLike parsed1 then
      match envCandidateMsg parsed1 with
      | some (.jstr m) =>
        match extractJsonFromText m with
        | some e => if isObjLike e then e else parsed1
        | none => parsed1
      | _ => parsed1
    else parsed1
  let parsed3 : JSValue :=
    if (¬ jsTruthy parsed2 ∨ ¬ isObjLike parsed2) ∧ optStrTruthy rawText then
      match extractJsonFromText (rawText.getD "") with
      | some v => if jsTruthy v then v else parsed2
      | none => parsed2
    else parsed2
  if ¬ jsTruthy parsed3 ∨ ¬ isObjLike parsed3 then
    { latex := none, answer := none, steps := none,
      notes := some (.jstr (match rawText with
        | some s => s
        | none => jsToString parsed3)) }
  else
    { latex := latexAliasOf parsed3
      answer := answerCoerce (answerObjStep (answerAliasOf parsed3))
      steps := stepsArrOf (rawFallback parsed3 (stepsFallback parsed3 (stepsAliasOf parsed3)))
      notes := notesAliasOf parsed3 }

/-- `normalizeParsed` (lines 733-852); the `none` result models the early
`return null` when both arguments are falsy. -/
def normalizeParsed (parsedIn : JSValue) (rawText : Option String) :
    Option LLMResult :=
  if ¬ jsTruthy parsedIn ∧ ¬ optStrTruthy rawText then none
  else some (normalizeCore parsedIn rawText)

/-! ### cleanLatex (lines 136-164) -/

theorem dropJsonTag_length_le (ci : Bool) (l : List Char) :
    (dropJsonTag ci l).length ≤ l.length := by
  unfold dropJsonTag
  split
  · split <;> split <;> (try simp only [List.length_cons]) <;> omega
  · simp

theorem fenceTagTail_length_le (ci : Bool) (l : List Char) :
    (fenceTagTail ci l).length ≤ l.length := by
  have h := dropJsonTag_length_le ci l
  unfold fenceTagTail
  split
  · rename_i c tl heq
    rw [heq] at h
    simp only [List.length_cons] at h
    split
    · omega
    · simp only [List.length_cons]
      omega
  · simp

/-- Remove every occurrence of «triple backtick, optional `json` tag,
optional newline» (`replace(/```(?:json)?\n?/gi, "")`). -/
def fenceRemoveAll : List Char → List Char
  | c1 :: c2 :: c3 :: rest =>
    if c1 = btC ∧ c2 = btC ∧ c3 = btC then fenceRemoveAll (fenceTagTail true rest)
    else c1 :: fenceRemoveAll (c2 :: c3 :: rest)
  | l => l
termination_by l => l.length
decreasing_by
  all_goals simp_wf
  all_goals (have hlen := fenceTagTail_length_le true rest; omega)

/-- Replace each literal `\n` escape pair by a space
(`replace(/\\n/g, " ")`). -/
def replBnSpace : List Char → List Char
  | c1 :: c2 :: rest =>
    if c1 = bsC ∧ c2 = 'n' then ' ' :: replBnSpace rest
    else c1 :: replBnSpace (c2 :: rest)
  | l => l

/-- Replace each carriage return by a space (`replace(/\r/g, " ")`). -/
def replCRSpace (l : List Char) : List Char :=
  l.map (fun c => if c = '\r' then ' ' else c)

/-- Match whitespace-then-`target` at the head of the input (the `\s*`
lookahead of `/\\\s*\[/`), returning the rest after `target`. -/
def wsThen (target : Char) : List Char → Option (List Char)
  | [] => none
  | c :: rest =>
    if c = target then some rest
    else if isJsWS c then wsThen target rest
    else none

theorem wsThen_length {t : Char} {l tl : List Char} (h : wsThen t l = some tl) :
    tl.length < l.length := by
  induction l generalizing tl with
  | nil => simp [wsThen] at h
  | cons c rest ih =>
    unfold wsThen at h
    by_cases hc : c = t
    · rw [if_pos hc] at h
      cases h
      simp only [List.length_cons]
      omega
    · rw [if_neg hc] at h
      by_cases hw : isJsWS c
      · rw [if_pos hw] at h
        have hlen := ih h
        simp only [List.length_cons]
        omega
      · rw [if_neg hw] at h
        cases h

mutual

/-- Normalize spacing around an escaped bracket
(`replace(/\\\s*\[/g, "\\[")` for `target = '['`, likewise for `']'`). -/
def fixBracket (target : Char) : List Char → List Char
  | [] => []
  | c :: rest =>
    if c = bsC then
      match wsThen target rest with
      | some _ => bsC :: target :: fixAfterMatch target rest
      | none => bsC :: fixBracket target rest
    else c :: fixBracket target rest

/-- After a successful whitespace-then-`target` lookahead, consume up to and
including `target`, then continue scanning. -/
def fixAfterMatch (target : Char) : List Char → List Char
  | [] => []
  | c :: rest =>
    if c = target then fixBracket target rest
    else fixAfterMatch target rest

end

/-- `cleanLatex` (lines 136-164) on character lists: trim, remove fences,
strip wrapping quotes, space out escape sequences, collapse backslash runs,
fix bracket spacing, trim. -/
def cleanLatexL (l : List Char) : List Char :=
  jsTrimL (fixBracket rbC (fixBracket lbC (collapseRunsOf bsC (replCRSpace (replBnSpace
    (stripQuotesEnds (stripTrailTicks (fenceRemoveAll (jsTrimL l)))))))))

/-- `cleanLatex` on strings. -/
def cleanLatex (s : String) : String := String.mk (cleanLatexL s.data)

/-! ### Claim theorems -/

/-- C1, counterexample: with `parsed = null` and `rawText` absent or empty,
`normalizeParsed` returns `null` (not a `SolutionResult`), contradicting
"always returns a SolutionResult value ... even when both inputs are absent". -/
theorem normalizeParsed_null_on_absent_inputs :
    normalizeParsed .jnull none = none ∧ normalizeParsed .jnull (some "") = none := by
  exact ⟨rfl, rfl⟩

/-- C1 (amended): whenever at least one input is truthy (`parsed` truthy or
`rawText` a non-empty string), `normalizeParsed` returns a result record;
only when both are falsy does it return `null`. -/
theorem normalizeParsed_total_of_truthy (p : JSValue) (r : Option String)
    (h : jsTruthy p = true ∨ optStrTruthy r = true) :
    normalizeParsed p r = some (normalizeCore p r) := by
  unfold normalizeParsed
  rw [if_neg]
  tauto

/-- C1 witness: a concrete truthy input goes through the non-null branch. -/
theorem normalizeParsed_total_of_truthy_witness :
    normalizeParsed .jnull (some "x") = some (normalizeCore .jnull (some "x")) :=
  normalizeParsed_total_of_truthy .jnull (some "x") (Or.inr (by decide))

/-- C2: normalization is a pure, deterministic function of its two arguments:
equal inputs give equal results. -/
theorem normalizeParsed_deterministic (p₁ : JSValue) (r₁ : Option String)
    (p₂ : JSValue) (r₂ : Option String) (hp : p₁ = p₂) (hr : r₁ = r₂) :
    normalizeParsed p₁ r₁ = normalizeParsed p₂ r₂ := by
  rw [hp, hr]

/-- C2 witness: determinism at a concrete input. -/
theorem normalizeParsed_deterministic_witness :
    normalizeParsed (.jobj [("answer", .jstr "5")]) none =
      normalizeParsed (.jobj [("answer", .jstr "5")]) none :=
  normalizeParsed_deterministic _ _ _ _ rfl rfl

/-- C3: on total failure (`parsed = null`, `rawText` not containing any JSON),
the result has `latex`, `answer` and `steps` absent and `notes` equal to the
raw text. -/
theorem normalizeParsed_total_failure :
    normalizeParsed .jnull (some "not json at all") =
      some { latex := none, answer := none, steps := none,
             notes := some (.jstr "not json at all") } := by
  rfl

/-- C4, counterexample: the code coerces with `!Number.isNaN`, not with a
finiteness test, so the string answer `"Infinity"` is replaced by the
non-finite number `Infinity` instead of being kept as a string. -/
theorem answer_coercion_infinity_cex :
    normalizeParsed (.jobj [("answer", .jstr "Infinity")]) none =
      some { latex := none, answer := some .posInf, steps := none, notes := none } ∧
    (AnsVal.posInf ≠ AnsVal.v (.jstr "Infinity")) :=
  ⟨rfl, fun h => AnsVal.noConfusion h⟩

/-- C4 (amended): a string-valued answer is first sanitized (Unicode minus to
hyphen, hyphen runs collapsed, wrapping quote/backtick characters stripped)
and then replaced by its `Number()` value exactly when that conversion is not
`NaN` (this includes the infinities, and the empty string which converts
to 0); otherwise the sanitized string is kept.  In particular `"42"` becomes
the number 42 and `"x = 3"` stays the string `"x = 3"`. -/
theorem answer_coercion_spec :
    (∀ s : String,
      normalizeParsed (.jobj [("answer", .jstr s)]) none =
        some { latex := none,
               answer := some (match jsToNumber (sanitizeAnswerString s) with
                               | some n => ansOfNum n
                               | none => AnsVal.v (.jstr (sanitizeAnswerString s))),
               steps := none, notes := none }) ∧
    normalizeParsed (.jobj [("answer", .jstr "42")]) none =
      some { latex := none, answer := some (.v (.jnum 42)), steps := none, notes := none } ∧
    normalizeParsed (.jobj [("answer", .jstr "x = 3")]) none =
      some { latex := none, answer := some (.v (.jstr "x = 3")), steps := none,
             notes := none } := by
  refine ⟨fun s => ?_, rfl, rfl⟩
  have base : normalizeParsed (.jobj [("answer", .jstr s)]) none =
      some { latex := none, answer := answerCoerce (some (.jstr s)), steps := none,
             notes := none } := rfl
  rw [base]
  cases h : jsToNumber (sanitizeAnswerString s) with
  | some n => simp only [answerCoerce, h]
  | none => simp only [answerCoerce, h]

/-- C5: a chat-completion envelope whose first choice's message content is a
fenced JSON string normalizes end-to-end: `latex` is `"x^2"`, `answer` is the
number 4, `steps` and `notes` are absent. -/
theorem envelope_unwrapping_end_to_end :
    normalizeParsed
      (.jobj [("choices", .jarr [.jobj [("message", .jobj [("content",
        .jstr "```json\n\x7b\"latex\":\"x^2\",\"answer\":\"4\"\x7d\n```")])]])])
      none =
    some { latex := some (.jstr "x^2"), answer := some (.v (.jnum 4)),
           steps := none, notes := none } :=
  rfl

/-- C6: alias precedence for `answer`: the first present alias wins, for any
values of the first two alias keys; with `answer: "5"` and `Answer: "6"` the
resolution picks `"5"` (which numeric coercion then turns into the number 5),
with non-numeric values the first string itself survives to the output, and
when no alias is present the field is left unset. -/
theorem alias_precedence_answer :
    (∀ s₁ s₂ : String,
      answerAliasOf (.jobj [("answer", .jstr s₁), ("Answer", .jstr s₂)]) =
        some (.jstr s₁)) ∧
    answerAliasOf (.jobj [("answer", .jstr "5"), ("Answer", .jstr "6")]) =
      some (.jstr "5") ∧
    normalizeParsed (.jobj [("answer", .jstr "5"), ("Answer", .jstr "6")]) none =
      some { latex := none, answer := some (.v (.jnum 5)), steps := none,
             notes := none } ∧
    normalizeParsed (.jobj [("answer", .jstr "a"), ("Answer", .jstr "b")]) none =
      some { latex := none, answer := some (.v (.jstr "a")), steps := none,
             notes := none } ∧
    normalizeParsed (.jobj [("latex", .jstr "x")]) none =
      some { latex := some (.jstr "x"), answer := none, steps := none,
             notes := none } :=
  ⟨fun _ _ => rfl, rfl, rfl, rfl, rfl⟩

/-- C8: fence preference in JSON extraction: whenever the input contains a
fenced code block with a non-empty capture whose trimmed content parses as
JSON, `extractJsonFromText` returns that parse, never the
first-brace/last-brace fallback. -/
theorem fence_preference (txt : String) (cap : List Char) (v : JSValue)
    (hf : findFence txt.data = some cap) (hne : cap ≠ [])
    (hp : jsonParse (String.mk (jsTrimL cap)) = some v) :
    extractJsonFromText txt = some v := by
  have htxt : txt ≠ "" := by
    intro h
    rw [h] at hf
    simp [findFence] at hf
  unfold extractJsonFromText
  rw [if_neg htxt, hf]
  simp only [hne, if_neg hne, hp]
  simp

/-- C8 witness: a text holding both a misleading brace pair and a fenced JSON
block extracts the fenced block's object. -/
theorem fence_preference_witness :
    extractJsonFromText "x \x7b\"a\":1 oops ```json\n\x7b\"b\":2\x7d\n``` y" =
      some (.jobj [("b", .jnum 2)]) :=
  fence_preference _ ("\x7b\"b\":2\x7d\n").data _ (by rfl) (by decide) (by rfl)

/-- C9: the normalizer is total (every input yields a value), and envelope
unwrapping runs exactly once rather than recursing: a single envelope around
a fenced result is unwrapped, while a doubly nested envelope is *not*
unwrapped further — its inner envelope parses, so no field is recovered. -/
theorem normalize_terminates_single_unwrap :
    (∀ (p : JSValue) (r : Option String), ∃ out, normalizeParsed p r = out) ∧
    normalizeParsed
      (.jobj [("choices", .jarr [.jobj [("message", .jobj [("content",
        .jstr "```json\n\x7b\"latex\":\"L\"\x7d\n```")])]])]) none =
      some { latex := some (.jstr "L"), answer := none, steps := none,
             notes := none } ∧
    normalizeParsed
      (.jobj [("choices", .jarr [.jobj [("message", .jobj [("content",
        .jstr "```json\n\x7b\"choices\":[\x7b\"message\":\x7b\"content\":\"```json\\n\x7b\\\"latex\\\":\\\"L\\\"\x7d\\n```\"\x7d\x7d]\x7d\n```")])]])]) none =
      some { latex := none, answer := none, steps := none, notes := none } :=
  ⟨fun p r => ⟨normalizeParsed p r, rfl⟩, rfl, rfl⟩

/-- C10, counterexample: with a non-empty `choices` array whose first choice
has no string message, the `message.content` fallback is *not* consulted
(it sits behind an `else if`), so `steps` stays absent instead of becoming
`["hello"]` as the claimed fallback chain would produce. -/
theorem steps_fallback_not_a_chain_cex :
    normalizeParsed
      (.jobj [("choices", .jarr [.jobj [("message", .jobj [("content", .jnum 7)])]]),
              ("message", .jobj [("content", .jstr "hello")])]) none =
      some { latex := none, answer := none, steps := none, notes := none } ∧
    (none : Option (List String)) ≠ some ["hello"] :=
  ⟨rfl, fun h => Option.noConfusion h⟩

/-- C10 (amended): the undocumented steps sources apply in this order — the
first choice's message string when JSON extraction fails on it; the parsed
object's `message.content` but only when there is no non-empty `choices`
array; then `raw`; then `raw_text` — and the chosen string is split into
step lines like any other string-valued `steps` field. -/
theorem steps_fallback_sources :
    normalizeParsed
      (.jobj [("choices", .jarr [.jobj [("message", .jobj [("content",
        .jstr "First, do A. Then do B.")])]])]) none =
      some { latex := none, answer := none,
             steps := some ["First, do A.", "Then do B."], notes := none } ∧
    normalizeParsed (.jobj [("message", .jobj [("content", .jstr "hello")])]) none =
      some { latex := none, answer := none, steps := some ["hello"],
             notes := none } ∧
    normalizeParsed (.jobj [("raw", .jstr "step text")]) none =
      some { latex := none, answer := none, steps := some ["step text"],
             notes := none } ∧
    normalizeParsed (.jobj [("raw_text", .jstr "abc")]) none =
      some { latex := none, answer := none, steps := some ["abc"],
             notes := none } ∧
    normalizeParsed (.jobj [("raw", .jstr "from raw"), ("raw_text", .jstr "from raw_text")])
      none =
      some { latex := none, answer := none, steps := some ["from raw"],
             notes := none } :=
  ⟨rfl, rfl, rfl, rfl, rfl⟩

/-! ### Idempotence development for cleanLatex -/

/-- No two adjacent characters `a` then `b` occur in `l`. -/
def noPair (a b : Char) (l : List Char) : Prop :=
  l.Chain' (fun c d => ¬(c = a ∧ d = b))

/-- Occurrence scanner for the pattern «backslash, one-or-more whitespace,
`target`» (the part of the bracket regex the rewrite can still change). -/
def hasBWT (target : Char) : List Char → Bool
  | c :: rest =>
    (c = bsC &&
      (match rest with
       | d :: _ => isJsWS d && (wsThen target rest).isSome
       | [] => false)) || hasBWT target rest
  | [] => false

theorem dropTrailWhile_front (p : Char → Bool) (l : List Char) :
    dropTrailWhile p l <+: l := by
  have h : l.reverse.dropWhile p <:+ l.reverse := List.dropWhile_suffix p
  have h2 := List.reverse_prefix.mpr h
  simpa [dropTrailWhile] using h2

theorem dropEnds_sub (p : Char → Bool) (l : List Char) :
    dropTrailWhile p (l.dropWhile p) <:+: l := by
  refine List.infix_iff_prefix_suffix.mpr ⟨l.dropWhile p, ?_, ?_⟩
  · exact dropTrailWhile_front p _
  · exact List.dropWhile_suffix p

theorem jsTrimL_sub (l : List Char) : jsTrimL l <:+: l :=
  dropEnds_sub isJsWS l

theorem mem_jsTrimL {c : Char} {l : List Char} (h : c ∈ jsTrimL l) : c ∈ l :=
  List.IsInfix.mem h (jsTrimL_sub l)

theorem mem_stripQuotesEnds {c : Char} {l : List Char} (h : c ∈ stripQuotesEnds l) :
    c ∈ l :=
  List.IsInfix.mem h (dropEnds_sub isQuoteC l)

theorem dropWhile_eq_self_of_head (p : Char → Bool) (l : List Char)
    (h : ∀ c, l.head? = some c → p c = false) : l.dropWhile p = l := by
  cases l with
  | nil => rfl
  | cons c rest =>
    have := h c rfl
    simp [List.dropWhile, this]

theorem prefix_head_eq {l₁ l₂ : List Char} (h : l₁ <+: l₂) (hne : l₁ ≠ []) :
    l₂.head? = l₁.head? := by
  rcases h with ⟨t, rfl⟩
  cases l₁ with
  | nil => exact absurd rfl hne
  | cons c r => rfl

theorem dropTrailWhile_idem (p : Char → Bool) (l : List Char) :
    dropTrailWhile p (dropTrailWhile p l) = dropTrailWhile p l := by
  simp [dropTrailWhile, List.dropWhile_idempotent]

theorem jsTrimL_idem (l : List Char) : jsTrimL (jsTrimL l) = jsTrimL l := by
  unfold jsTrimL
  have h1 : (dropTrailWhile isJsWS (l.dropWhile isJsWS)).dropWhile isJsWS =
      dropTrailWhile isJsWS (l.dropWhile isJsWS) := by
    apply dropWhile_eq_self_of_head
    intro c hc
    by_cases hne : dropTrailWhile isJsWS (l.dropWhile isJsWS) = []
    · rw [hne] at hc
      exact absurd hc (by simp)
    · have hpre := dropTrailWhile_front isJsWS (l.dropWhile isJsWS)
      have hh := prefix_head_eq hpre hne
      have h3 := List.head?_dropWhile_not isJsWS l
      rw [hh, hc] at h3
      exact h3
  rw [h1, dropTrailWhile_idem]

theorem mem_dropJsonTag {c : Char} (ci : Bool) {l : List Char}
    (h : c ∈ dropJsonTag ci l) : c ∈ l := by
  unfold dropJsonTag at h
  split at h
  · split at h <;> split at h <;> simp_all
  · exact h

theorem mem_fenceTagTail {c : Char} (ci : Bool) {l : List Char}
    (h : c ∈ fenceTagTail ci l) : c ∈ l := by
  unfold fenceTagTail at h
  split at h
  · rename_i d tl heq
    split at h
    · exact mem_dropJsonTag ci (heq ▸ List.mem_cons_of_mem d h)
    · exact mem_dropJsonTag ci (heq ▸ h)
  · simp at h

theorem mem_fenceRemoveAll {c : Char} {l : List Char}
    (h : c ∈ fenceRemoveAll l) : c ∈ l := by
  induction l using fenceRemoveAll.induct with
  | case1 c1 c2 c3 rest hbt ih =>
    rw [fenceRemoveAll, if_pos hbt] at h
    have := mem_fenceTagTail true (ih h)
    simp [this]
  | case2 c1 c2 c3 rest hbt ih =>
    rw [fenceRemoveAll, if_neg hbt] at h
    rcases List.mem_cons.mp h with rfl | h2
    · simp
    · have := ih h2
      simp at this ⊢
      tauto
  | case3 l hshape =>
    rw [fenceRemoveAll] at h
    · exact h
    · exact hshape

theorem fenceRemoveAll_id_of_no_bt {l : List Char} (h : ∀ c ∈ l, c ≠ btC) :
    fenceRemoveAll l = l := by
  induction l using fenceRemoveAll.induct with
  | case1 c1 c2 c3 rest hbt ih =>
    exact absurd hbt.1 (h c1 (by simp))
  | case2 c1 c2 c3 rest hbt ih =>
    rw [fenceRemoveAll, if_neg hbt]
    rw [ih]
    intro c hc
    exact h c (List.mem_cons_of_mem c1 hc)
  | case3 l hshape =>
    rw [fenceRemoveAll]
    exact hshape

theorem mem_stripTrailTicks {c : Char} {l : List Char}
    (h : c ∈ stripTrailTicks l) : c ∈ l := by
  unfold stripTrailTicks at h
  split at h
  · rename_i c1 c2 c3 rest heq
    split at h
    · have h2 : c ∈ rest := by simpa using h
      have h3 : c ∈ l.reverse := by
        rw [heq]
        simp [h2]
      simpa using h3
    · exact h
  · exact h

theorem stripTrailTicks_id_of_no_bt {l : List Char} (h : ∀ c ∈ l, c ≠ btC) :
    stripTrailTicks l = l := by
  unfold stripTrailTicks
  split
  · rename_i c1 c2 c3 rest heq
    rw [if_neg]
    intro hcon
    have hc1 : c1 ∈ l.reverse := by rw [heq]; simp
    exact h c1 (by simpa using hc1) hcon.1
  · rfl

theorem dropTrailWhile_eq_self_of_no (p : Char → Bool) (l : List Char)
    (h : ∀ c ∈ l, p c = false) : dropTrailWhile p l = l := by
  unfold dropTrailWhile
  rw [dropWhile_eq_self_of_head]
  · simp
  · intro c hc
    have : c ∈ l.reverse := List.mem_of_mem_head? (by simp [hc])
    exact h c (by simpa using this)

theorem stripQuotesEnds_id_of_noQ {l : List Char} (h : ∀ c ∈ l, isQuoteC c = false) :
    stripQuotesEnds l = l := by
  unfold stripQuotesEnds
  rw [dropWhile_eq_self_of_head isQuoteC l
    (fun c hc => h c (List.mem_of_mem_head? (by simp [hc])))]
  exact dropTrailWhile_eq_self_of_no isQuoteC l h

theorem mem_replCRSpace {c : Char} {l : List Char} (h : c ∈ replCRSpace l) :
    c ∈ l ∨ c = ' ' := by
  unfold replCRSpace at h
  rcases List.mem_map.mp h with ⟨d, hd, hf⟩
  by_cases hdc : d = '\r'
  · right
    rw [← hf, hdc]
    simp
  · left
    rwa [← hf, if_neg hdc]

theorem replCRSpace_no_cr (l : List Char) : ∀ c ∈ replCRSpace l, c ≠ '\r' := by
  intro c h
  unfold replCRSpace at h
  rcases List.mem_map.mp h with ⟨d, _, hf⟩
  by_cases hdc : d = '\r'
  · rw [← hf, hdc]
    simp
  · rw [← hf, if_neg hdc]
    exact hdc

theorem replCRSpace_id {l : List Char} (h : ∀ c ∈ l, c ≠ '\r') :
    replCRSpace l = l := by
  unfold replCRSpace
  induction l with
  | nil => rfl
  | cons c rest ih =>
    simp only [List.map_cons]
    rw [if_neg (h c (by simp)), ih]
    intro d hd
    exact h d (List.mem_cons_of_mem c hd)

theorem replBnSpace_head {m : List Char} {y : Char}
    (h : (replBnSpace m).head? = some y) : y = ' ' ∨ m.head? = some y := by
  rcases m with _ | ⟨c1, _ | ⟨c2, rest⟩⟩
  · simp [replBnSpace] at h
  · right
    simpa [replBnSpace] using h
  · rw [replBnSpace] at h
    split at h
    · left
      simpa using h.symm
    · right
      simpa using h

theorem mem_replBnSpace {c : Char} {l : List Char} (h : c ∈ replBnSpace l) :
    c ∈ l ∨ c = ' ' := by
  induction l using replBnSpace.induct with
  | case1 c1 c2 rest hbn ih =>
    rw [replBnSpace, if_pos hbn] at h
    rcases List.mem_cons.mp h with rfl | h2
    · right; rfl
    · rcases ih h2 with h3 | h3
      · left; simp [h3]
      · right; exact h3
  | case2 c1 c2 rest hbn ih =>
    rw [replBnSpace, if_neg hbn] at h
    rcases List.mem_cons.mp h with rfl | h2
    · left; simp
    · rcases ih h2 with h3 | h3
      · left; simp at h3 ⊢; tauto
      · right; exact h3
  | case3 l hshape =>
    rw [replBnSpace] at h
    · exact Or.inl h
    · exact hshape

theorem replBnSpace_noPair (l : List Char) : noPair bsC 'n' (replBnSpace l) := by
  induction l using replBnSpace.induct with
  | case1 c1 c2 rest hbn ih =>
    rw [replBnSpace, if_pos hbn]
    refine List.chain'_cons'.mpr ⟨?_, ih⟩
    intro y _
    intro hcon
    exact absurd hcon.1 (by decide)
  | case2 c1 c2 rest hbn ih =>
    rw [replBnSpace, if_neg hbn]
    refine List.chain'_cons'.mpr ⟨?_, ih⟩
    intro y hy hcon
    rcases replBnSpace_head hy with rfl | hhead
    · exact absurd hcon.2 (by decide)
    · simp at hhead
      exact hbn ⟨hcon.1, hhead ▸ hcon.2⟩
  | case3 l hshape =>
    rw [replBnSpace]
    · rcases l with _ | ⟨c, _ | ⟨d, r⟩⟩
      · exact List.chain'_nil
      · exact List.chain'_singleton c
      · exact absurd rfl (hshape c d r)
    · exact hshape

theorem replBnSpace_id {l : List Char} (h : noPair bsC 'n' l) :
    replBnSpace l = l := by
  induction l using replBnSpace.induct with
  | case1 c1 c2 rest hbn ih =>
    exfalso
    have := (List.chain'_cons'.mp h).1 c2 rfl
    exact this hbn
  | case2 c1 c2 rest hbn ih =>
    rw [replBnSpace, if_neg hbn]
    rw [ih (List.chain'_cons'.mp h).2]
  | case3 l hshape =>
    rw [replBnSpace]
    exact hshape

theorem skipRunOf_eq (t : Char) (l : List Char) :
    skipRunOf t l = collapseRunsOf t (l.dropWhile (fun d => d = t)) := by
  induction l with
  | nil => rfl
  | cons c rest ih =>
    by_cases hc : c = t
    · rw [skipRunOf, if_pos hc, ih]
      simp [List.dropWhile, hc]
    · rw [skipRunOf, if_neg hc]
      rw [List.dropWhile_cons_of_neg (by simpa using hc)]
      rw [collapseRunsOf, if_neg hc]

theorem collapse_cons (t c : Char) (rest : List Char) :
    collapseRunsOf t (c :: rest) =
      if c = t then t :: collapseRunsOf t (rest.dropWhile (fun d => d = t))
      else c :: collapseRunsOf t rest := by
  rw [collapseRunsOf]
  by_cases hc : c = t
  · rw [if_pos hc, if_pos hc, skipRunOf_eq]
  · rw [if_neg hc, if_neg hc]

theorem head_collapseRunsOf (t : Char) (l : List Char) :
    (collapseRunsOf t l).head? = l.head? := by
  cases l with
  | nil => rfl
  | cons c rest =>
    rw [collapse_cons]
    by_cases hc : c = t
    · rw [if_pos hc, hc]
      rfl
    · rw [if_neg hc]
      rfl

theorem mem_collapseRunsOf (t : Char) :
    ∀ (l : List Char) (c : Char), c ∈ collapseRunsOf t l → c ∈ l ∨ c = t
  | [], c, h => by simp [collapseRunsOf] at h
  | a :: rest, c, h => by
    rw [collapse_cons] at h
    split at h
    · rcases List.mem_cons.mp h with rfl | h2
      · exact Or.inr rfl
      · rcases mem_collapseRunsOf t (rest.dropWhile (fun d => d = t)) c h2 with h3 | h3
        · exact Or.inl (List.mem_cons_of_mem a ((List.dropWhile_sublist _).mem h3))
        · exact Or.inr h3
    · rcases List.mem_cons.mp h with rfl | h2
      · exact Or.inl (by simp)
      · rcases mem_collapseRunsOf t rest c h2 with h3 | h3
        · exact Or.inl (List.mem_cons_of_mem a h3)
        · exact Or.inr h3
termination_by l => l.length
decreasing_by
  all_goals simp_wf
  all_goals try exact Nat.lt_succ_of_le (length_dropWhile_le _ _)

theorem chainDropT {R : Char → Char → Prop} (t : Char) :
    ∀ (l : List Char), List.Chain' R (t :: l) →
      List.Chain' R (t :: l.dropWhile (fun d => d = t))
  | [], h => by simpa using h
  | c :: rest, h => by
    by_cases hc : c = t
    · subst hc
      rw [List.dropWhile_cons_of_pos (by simp)]
      exact chainDropT c rest (List.chain'_cons'.mp h).2
    · rwa [List.dropWhile_cons_of_neg (by simpa using hc)]

theorem collapse_chain {R : Char → Char → Prop} (t : Char) :
    ∀ (l : List Char), List.Chain' R l → List.Chain' R (collapseRunsOf t l)
  | [], _ => by simpa [collapseRunsOf]
  | c :: rest, h => by
    rw [collapse_cons]
    split
    · rename_i hc
      subst hc
      refine List.chain'_cons'.mpr ⟨?_, ?_⟩
      · intro y hy
        rw [head_collapseRunsOf] at hy
        exact (List.chain'_cons'.mp (chainDropT c rest h)).1 y hy
      · exact collapse_chain c _ (List.chain'_cons'.mp (chainDropT c rest h)).2
    · refine List.chain'_cons'.mpr ⟨?_, ?_⟩
      · intro y hy
        rw [head_collapseRunsOf] at hy
        exact (List.chain'_cons'.mp h).1 y hy
      · exact collapse_chain t rest (List.chain'_cons'.mp h).2
termination_by l => l.length
decreasing_by
  all_goals simp_wf
  all_goals try exact Nat.lt_succ_of_le (length_dropWhile_le _ _)

theorem collapse_noPair (t : Char) :
    ∀ (l : List Char), noPair t t (collapseRunsOf t l)
  | [] => by simp [collapseRunsOf, noPair]
  | c :: rest => by
    rw [collapse_cons]
    split
    · refine List.chain'_cons'.mpr ⟨?_, collapse_noPair t _⟩
      intro y hy hcon
      rw [head_collapseRunsOf] at hy
      have h3 := List.head?_dropWhile_not (fun d => d = t) rest
      rw [hy] at h3
      simp at h3
      exact h3 hcon.2
    · refine List.chain'_cons'.mpr ⟨?_, collapse_noPair t rest⟩
      rename_i hc
      intro y _ hcon
      exact hc hcon.1
termination_by l => l.length
decreasing_by
  all_goals simp_wf
  all_goals try exact Nat.lt_succ_of_le (length_dropWhile_le _ _)

theorem collapse_id (t : Char) :
    ∀ (l : List Char), noPair t t l → collapseRunsOf t l = l
  | [], _ => rfl
  | c :: rest, h => by
    rw [collapse_cons]
    split
    · rename_i hc
      subst hc
      have hhead : rest.dropWhile (fun d => d = c) = rest := by
        apply dropWhile_eq_self_of_head
        intro y hy
        have := (List.chain'_cons'.mp h).1 y (by simp [hy])
        simp at this ⊢
        exact this
      rw [hhead, collapse_id c rest (List.chain'_cons'.mp h).2]
    · rw [collapse_id t rest (List.chain'_cons'.mp h).2]

theorem fixAfterMatch_eq {t : Char} :
    ∀ {rest tl : List Char}, wsThen t rest = some tl →
      fixAfterMatch t rest = fixBracket t tl := by
  intro rest
  induction rest with
  | nil => intro tl h; simp [wsThen] at h
  | cons c r2 ih =>
    intro tl h
    unfold wsThen at h
    by_cases hc : c = t
    · rw [if_pos hc] at h
      injection h with h2
      subst h2
      rw [fixAfterMatch, if_pos hc]
    · rw [if_neg hc] at h
      by_cases hw : isJsWS c
      · rw [if_pos hw] at h
        rw [fixAfterMatch, if_neg hc]
        exact ih h
      · rw [if_neg hw] at h
        cases h

theorem wsThen_cons_suffix {t : Char} :
    ∀ {l tl : List Char}, wsThen t l = some tl → t :: tl <:+ l := by
  intro l
  induction l with
  | nil => intro tl h; simp [wsThen] at h
  | cons c r2 ih =>
    intro tl h
    unfold wsThen at h
    by_cases hc : c = t
    · rw [if_pos hc] at h
      injection h with h2
      subst h2
      subst hc
      exact List.suffix_refl _
    · rw [if_neg hc] at h
      by_cases hw : isJsWS c
      · rw [if_pos hw] at h
        exact (ih h).trans (List.suffix_cons c r2)
      · rw [if_neg hw] at h
        cases h

theorem fixBracket_cons (t c : Char) (rest : List Char) :
    fixBracket t (c :: rest) =
      if c = bsC then
        match wsThen t rest with
        | some tl => bsC :: t :: fixBracket t tl
        | none => bsC :: fixBracket t rest
      else c :: fixBracket t rest := by
  rw [fixBracket]
  by_cases hc : c = bsC
  · rw [if_pos hc, if_pos hc]
    cases hws : wsThen t rest with
    | some tl =>
      simp only [hws]
      rw [fixAfterMatch_eq hws]
    | none => simp only [hws]
  · rw [if_neg hc, if_neg hc]

theorem head_fixBracket (t : Char) (l : List Char) :
    (fixBracket t l).head? = l.head? := by
  cases l with
  | nil => rfl
  | cons c rest =>
    rw [fixBracket_cons]
    by_cases hc : c = bsC
    · rw [if_pos hc]
      cases hws : wsThen t rest <;> simp [hc]
    · rw [if_neg hc]
      rfl

theorem mem_fixBracket (t : Char) :
    ∀ (l : List Char) (c : Char), c ∈ fixBracket t l → c ∈ l ∨ c = t
  | [], c, h => by simp [fixBracket] at h
  | a :: rest, c, h => by
    rw [fixBracket_cons] at h
    by_cases ha : a = bsC
    · rw [if_pos ha] at h
      cases hws : wsThen t rest with
      | some tl =>
        rw [hws] at h
        simp only [List.mem_cons] at h
        rcases h with rfl | rfl | h3
        · exact Or.inl (by simp [ha])
        · exact Or.inr rfl
        · rcases mem_fixBracket t tl c h3 with h4 | h4
          · have h5 : c ∈ t :: tl := List.mem_cons_of_mem t h4
            have h6 := (wsThen_cons_suffix hws).sublist.mem h5
            exact Or.inl (List.mem_cons_of_mem a h6)
          · exact Or.inr h4
      | none =>
        rw [hws] at h
        simp only [List.mem_cons] at h
        rcases h with rfl | h3
        · exact Or.inl (by simp [ha])
        · rcases mem_fixBracket t rest c h3 with h4 | h4
          · exact Or.inl (List.mem_cons_of_mem a h4)
          · exact Or.inr h4
    · rw [if_neg ha] at h
      rcases List.mem_cons.mp h with rfl | h3
      · exact Or.inl (by simp)
      · rcases mem_fixBracket t rest c h3 with h4 | h4
        · exact Or.inl (List.mem_cons_of_mem a h4)
        · exact Or.inr h4
termination_by l => l.length
decreasing_by
  all_goals simp_wf
  all_goals try (have hlen := wsThen_length hws; omega)

theorem wsThen_none_fix {a b : Char} (ha : a ≠ bsC) :
    ∀ (l : List Char), wsThen a l = none → wsThen a (fixBracket b l) = none := by
  intro l
  induction l with
  | nil => intro _; rfl
  | cons c rest ih =>
    intro h
    unfold wsThen at h
    by_cases hc : c = a
    · rw [if_pos hc] at h
      cases h
    · rw [if_neg hc] at h
      by_cases hw : isJsWS c
      · rw [if_pos hw] at h
        have hcbs : c ≠ bsC := by
          intro hcon
          rw [hcon] at hw
          exact absurd hw (by decide)
        rw [fixBracket_cons, if_neg hcbs]
        rw [wsThen, if_neg hc, if_pos hw]
        exact ih h
      · have hhead := head_fixBracket b (c :: rest)
        rcases List.head?_eq_some_iff.mp hhead with ⟨ys, hys⟩
        rw [hys, wsThen, if_neg hc, if_neg hw]

theorem hasBWT_cons (a c : Char) (rest : List Char) :
    hasBWT a (c :: rest) =
      ((c = bsC &&
        (match rest with
         | d :: _ => isJsWS d && (wsThen a rest).isSome
         | [] => false)) || hasBWT a rest) := rfl

theorem hasBWT_tail {a c : Char} {rest : List Char}
    (h : hasBWT a (c :: rest) = false) : hasBWT a rest = false := by
  rw [hasBWT_cons] at h
  exact (Bool.or_eq_false_iff.mp h).2

theorem hasBWT_false_suffix {a : Char} {l₁ l₂ : List Char} (hs : l₁ <:+ l₂)
    (h : hasBWT a l₂ = false) : hasBWT a l₁ = false := by
  rcases hs with ⟨p, rfl⟩
  induction p with
  | nil => exact h
  | cons x xs ih => exact ih (hasBWT_tail h)

theorem fixBracket_id (t : Char) :
    ∀ (l : List Char), hasBWT t l = false → fixBracket t l = l
  | [], _ => rfl
  | [c], _ => by
    rw [fixBracket_cons]
    by_cases hc : c = bsC
    · rw [if_pos hc]
      simp [wsThen, hc, fixBracket]
    · rw [if_neg hc]
      simp [fixBracket]
  | c :: d :: r2, h => by
    rw [fixBracket_cons]
    by_cases hc : c = bsC
    · rw [if_pos hc]
      cases hws : wsThen t (d :: r2) with
      | none =>
        simp only []
        rw [hc, fixBracket_id t (d :: r2) (hasBWT_tail h)]
      | some tl =>
        simp only []
        by_cases hd : d = t
        · rw [wsThen, if_pos hd] at hws
          injection hws with hws2
          rw [hc, hd, ← hws2, fixBracket_id t r2 (hasBWT_tail (hasBWT_tail h))]
        · exfalso
          by_cases hw : isJsWS d
          · have hsome : (wsThen t (d :: r2)).isSome = true := by
              rw [hws]
              rfl
            rw [hasBWT_cons] at h
            have h1 := (Bool.or_eq_false_iff.mp h).1
            rw [hc] at h1
            simp [hw, hsome] at h1
          · have hnone : wsThen t (d :: r2) = none := by
              rw [wsThen, if_neg hd, if_neg hw]
            rw [hnone] at hws
            cases hws
    · rw [if_neg hc, fixBracket_id t (d :: r2) (hasBWT_tail h)]
termination_by l => l.length
decreasing_by
  all_goals simp_wf
  all_goals omega

theorem fix_chain {R : Char → Char → Prop} {t : Char} (hR : R bsC t) :
    ∀ (l : List Char), List.Chain' R l → List.Chain' R (fixBracket t l)
  | [], _ => List.chain'_nil
  | c :: rest, h => by
    rw [fixBracket_cons]
    by_cases hc : c = bsC
    · rw [if_pos hc]
      cases hws : wsThen t rest with
      | some tl =>
        simp only []
        have htail := (List.chain'_cons'.mp h).2
        have hsuff : t :: tl <:+ rest := wsThen_cons_suffix hws
        have hchain : List.Chain' R (t :: tl) :=
          List.Chain'.infix htail ( List.IsSuffix.isInfix hsuff)
        refine List.chain'_cons'.mpr ⟨?_, List.chain'_cons'.mpr ⟨?_, ?_⟩⟩
        · intro y hy
          simp at hy
          exact hy ▸ hR
        · intro y hy
          rw [head_fixBracket] at hy
          exact (List.chain'_cons'.mp hchain).1 y hy
        · exact fix_chain hR tl (List.chain'_cons'.mp hchain).2
      | none =>
        simp only []
        refine List.chain'_cons'.mpr ⟨?_, fix_chain hR rest (List.chain'_cons'.mp h).2⟩
        intro y hy
        rw [head_fixBracket] at hy
        rw [← hc]
        exact (List.chain'_cons'.mp h).1 y hy
    · rw [if_neg hc]
      refine List.chain'_cons'.mpr ⟨?_, fix_chain hR rest (List.chain'_cons'.mp h).2⟩
      intro y hy
      rw [head_fixBracket] at hy
      exact (List.chain'_cons'.mp h).1 y hy
termination_by l => l.length
decreasing_by
  all_goals simp_wf
  all_goals try (have hlen := wsThen_length hws; omega)
  all_goals omega

theorem fixBracket_hasBWT_self {t : Char} (ht : t ≠ bsC) (hts : isJsWS t = false) :
    ∀ (l : List Char), hasBWT t (fixBracket t l) = false
  | [] => rfl
  | c :: rest => by
    rw [fixBracket_cons]
    by_cases hc : c = bsC
    · rw [if_pos hc]
      cases hws : wsThen t rest with
      | some tl =>
        simp only []
        rw [hasBWT_cons, hasBWT_cons]
        rw [fixBracket_hasBWT_self ht hts tl]
        simp [hts, ht]
      | none =>
        simp only []
        rw [hasBWT_cons]
        rw [fixBracket_hasBWT_self ht hts rest]
        have hn := wsThen_none_fix (b := t) ht rest hws
        cases hfr : fixBracket t rest with
        | nil => simp
        | cons d r2 =>
          rw [hfr] at hn
          simp [hn]
    · rw [if_neg hc]
      rw [hasBWT_cons]
      rw [fixBracket_hasBWT_self ht hts rest]
      simp [hc]
termination_by l => l.length
decreasing_by
  all_goals simp_wf
  all_goals try (have hlen := wsThen_length hws; omega)
  all_goals omega

theorem fixBracket_hasBWT_preserve {a b : Char} (ha : a ≠ bsC)
    (hbws : isJsWS b = false) (hb : b ≠ bsC) :
    ∀ (l : List Char), hasBWT a l = false → hasBWT a (fixBracket b l) = false
  | [], _ => rfl
  | c :: rest, h => by
    rw [fixBracket_cons]
    by_cases hc : c = bsC
    · rw [if_pos hc]
      cases hws : wsThen b rest with
      | some tl =>
        simp only []
        rw [hasBWT_cons, hasBWT_cons]
        have htl : hasBWT a tl = false := by
          have hsuff : tl <:+ rest :=
            (List.suffix_cons b tl).trans (wsThen_cons_suffix hws)
          exact hasBWT_false_suffix hsuff (hasBWT_tail h)
        rw [fixBracket_hasBWT_preserve ha hbws hb tl htl]
        simp [hbws, hb]
      | none =>
        simp only []
        subst hc
        rw [hasBWT_cons]
        rw [fixBracket_hasBWT_preserve ha hbws hb rest (hasBWT_tail h)]
        cases hfr : fixBracket b rest with
        | nil => simp
        | cons d r2 =>
          have hhead : rest.head? = some d := by
            rw [← head_fixBracket b rest, hfr]
            rfl
          rcases List.head?_eq_some_iff.mp hhead with ⟨ys, hys⟩
          by_cases hw : isJsWS d
          · have hn2 : wsThen a rest = none := by
              rw [hys] at h ⊢
              rw [hasBWT_cons] at h
              have h2 := (Bool.or_eq_false_iff.mp h).1
              simp [hw] at h2
              exact h2
            have hfix := wsThen_none_fix (b := b) ha rest hn2
            rw [hfr] at hfix
            simp [hfix]
          · simp [hw]
    · rw [if_neg hc]
      rw [hasBWT_cons]
      rw [fixBracket_hasBWT_preserve ha hbws hb rest (hasBWT_tail h)]
      simp [hc]
termination_by l => l.length
decreasing_by
  all_goals simp_wf
  all_goals try (have hlen := wsThen_length hws; omega)
  all_goals omega

theorem wsThen_cons (a c : Char) (r : List Char) :
    wsThen a (c :: r) =
      if c = a then some r else if isJsWS c then wsThen a r else none := rfl

theorem wsThen_some_append {a : Char} :
    ∀ {xs tl t2 : List Char}, wsThen a xs = some tl →
      wsThen a (xs ++ t2) = some (tl ++ t2) := by
  intro xs
  induction xs with
  | nil => intro tl t2 h; simp [wsThen] at h
  | cons c r ih =>
    intro tl t2 h
    rw [wsThen_cons] at h
    rw [List.cons_append, wsThen_cons]
    by_cases hc : c = a
    · rw [if_pos hc] at h ⊢
      injection h with h2
      rw [← h2]
    · rw [if_neg hc] at h ⊢
      by_cases hw : isJsWS c
      · rw [if_pos hw] at h ⊢
        exact ih h
      · rw [if_neg hw] at h
        cases h

theorem hasBWT_true_append {a : Char} :
    ∀ (m t2 : List Char), hasBWT a m = true → hasBWT a (m ++ t2) = true := by
  intro m
  induction m with
  | nil => intro t2 h; simp [hasBWT] at h
  | cons c rest ih =>
    intro t2 h
    rw [hasBWT_cons] at h
    rcases Bool.or_eq_true_iff.mp h with h1 | h2
    · rcases Bool.and_eq_true_iff.mp h1 with ⟨hcb, hm⟩
      rcases rest with _ | ⟨d, tail⟩
      · simp at hm
      · rcases Bool.and_eq_true_iff.mp hm with ⟨hwd, hsome⟩
        have hsome2 : ∃ tl, wsThen a (d :: tail) = some tl := by
          cases hx : wsThen a (d :: tail) with
          | none => rw [hx] at hsome; simp at hsome
          | some z => exact ⟨z, rfl⟩
        rcases hsome2 with ⟨tl, htl⟩
        rw [List.cons_append, hasBWT_cons]
        apply Bool.or_eq_true_iff.mpr
        left
        apply Bool.and_eq_true_iff.mpr
        refine ⟨hcb, ?_⟩
        rw [List.cons_append]
        simp only [hwd, Bool.true_and]
        rw [← List.cons_append, wsThen_some_append htl]
        rfl
    · rw [List.cons_append, hasBWT_cons]
      apply Bool.or_eq_true_iff.mpr
      right
      exact ih t2 h2

theorem hasBWT_true_prepend {a : Char} {m : List Char} (h : hasBWT a m = true) :
    ∀ p : List Char, hasBWT a (p ++ m) = true := by
  intro p
  induction p with
  | nil => simpa using h
  | cons x xs ih =>
    rw [List.cons_append, hasBWT_cons]
    apply Bool.or_eq_true_iff.mpr
    right
    exact ih

theorem hasBWT_false_of_sub {a : Char} {l₁ l₂ : List Char} (hi : l₁ <:+: l₂)
    (h : hasBWT a l₂ = false) : hasBWT a l₁ = false := by
  rcases hi with ⟨p, s, rfl⟩
  by_cases h1 : hasBWT a l₁ = true
  · have h2 := hasBWT_true_prepend (hasBWT_true_append l₁ s h1) p
    rw [List.append_assoc] at h
    rw [h2] at h
    cases h
  · simpa using h1

theorem cleanLatexL_no_quote {l : List Char} (hq : ∀ c ∈ l, isQuoteC c = false) :
    ∀ c ∈ cleanLatexL l, isQuoteC c = false := by
  intro c hc
  unfold cleanLatexL at hc
  have h1 := mem_jsTrimL hc
  rcases mem_fixBracket rbC _ c h1 with h2 | rfl
  swap
  · decide
  rcases mem_fixBracket lbC _ c h2 with h3 | rfl
  swap
  · decide
  rcases mem_collapseRunsOf bsC _ c h3 with h4 | rfl
  swap
  · decide
  rcases mem_replCRSpace h4 with h5 | rfl
  swap
  · decide
  rcases mem_replBnSpace h5 with h6 | rfl
  swap
  · decide
  exact hq c (mem_jsTrimL (mem_fenceRemoveAll (mem_stripTrailTicks (mem_stripQuotesEnds h6))))

theorem cleanLatexL_no_cr (l : List Char) : ∀ c ∈ cleanLatexL l, c ≠ '\r' := by
  intro c hc
  unfold cleanLatexL at hc
  have h1 := mem_jsTrimL hc
  rcases mem_fixBracket rbC _ c h1 with h2 | rfl
  swap
  · decide
  rcases mem_fixBracket lbC _ c h2 with h3 | rfl
  swap
  · decide
  rcases mem_collapseRunsOf bsC _ c h3 with h4 | rfl
  swap
  · decide
  exact replCRSpace_no_cr _ c h4

theorem cleanLatexL_noPair_bn (l : List Char) : noPair bsC 'n' (cleanLatexL l) := by
  unfold cleanLatexL
  apply List.Chain'.infix _ (jsTrimL_sub _)
  apply fix_chain (by decide)
  apply fix_chain (by decide)
  apply collapse_chain
  have e1 := replBnSpace_noPair
    (stripQuotesEnds (stripTrailTicks (fenceRemoveAll (jsTrimL l))))
  unfold replCRSpace
  rw [List.chain'_map]
  apply List.Chain'.imp _ e1
  intro a b hab hcon
  apply hab
  constructor
  · by_cases ha : a = '\r'
    · rw [if_pos ha] at hcon
      exact absurd hcon.1 (by decide)
    · rw [if_neg ha] at hcon
      exact hcon.1
  · by_cases hb : b = '\r'
    · rw [if_pos hb] at hcon
      exact absurd hcon.2 (by decide)
    · rw [if_neg hb] at hcon
      exact hcon.2

theorem cleanLatexL_noPair_bb (l : List Char) : noPair bsC bsC (cleanLatexL l) := by
  unfold cleanLatexL
  apply List.Chain'.infix _ (jsTrimL_sub _)
  apply fix_chain (by decide)
  apply fix_chain (by decide)
  exact collapse_noPair bsC _

theorem cleanLatexL_hasBWT_lb (l : List Char) :
    hasBWT lbC (cleanLatexL l) = false := by
  unfold cleanLatexL
  apply hasBWT_false_of_sub (jsTrimL_sub _)
  apply fixBracket_hasBWT_preserve (by decide) (by decide) (by decide)
  exact fixBracket_hasBWT_self (by decide) (by decide) _

theorem cleanLatexL_hasBWT_rb (l : List Char) :
    hasBWT rbC (cleanLatexL l) = false := by
  unfold cleanLatexL
  apply hasBWT_false_of_sub (jsTrimL_sub _)
  exact fixBracket_hasBWT_self (by decide) (by decide) _

theorem cleanLatexL_trimmed (l : List Char) :
    jsTrimL (cleanLatexL l) = cleanLatexL l := by
  unfold cleanLatexL
  exact jsTrimL_idem _

theorem cleanLatexL_idem {l : List Char} (hq : ∀ c ∈ l, isQuoteC c = false) :
    cleanLatexL (cleanLatexL l) = cleanLatexL l := by
  have nq := cleanLatexL_no_quote hq
  have ncr := cleanLatexL_no_cr l
  have nbn := cleanLatexL_noPair_bn l
  have nbb := cleanLatexL_noPair_bb l
  have nlb := cleanLatexL_hasBWT_lb l
  have nrb := cleanLatexL_hasBWT_rb l
  have htr := cleanLatexL_trimmed l
  have nbt : ∀ c ∈ cleanLatexL l, c ≠ btC := by
    intro c hc hbt
    have := nq c hc
    rw [hbt] at this
    exact absurd this (by decide)
  conv_lhs => rw [cleanLatexL]
  rw [htr, fenceRemoveAll_id_of_no_bt nbt, stripTrailTicks_id_of_no_bt nbt,
    stripQuotesEnds_id_of_noQ nq, replBnSpace_id nbn, replCRSpace_id ncr,
    collapse_id bsC _ nbb, fixBracket_id lbC _ nlb, fixBracket_id rbC _ nrb]
  exact htr

/-- C7, counterexample: cleanLatex is not idempotent on all strings: on
`\n'a'` (literal backslash-n, then `'a'`), the first pass rewrites the escape
to a space and trims, exposing a leading quote that only the second pass
strips: `cleanLatex "\n'a'" = "'a"` but `cleanLatex "'a" = "a"`. -/
theorem cleanLatex_not_idempotent_cex :
    cleanLatex (cleanLatex "\\n'a'") ≠ cleanLatex "\\n'a'" := by
  have h1 : cleanLatex "\\n'a'" = "'a" := by
    unfold cleanLatex cleanLatexL
    rw [fenceRemoveAll_id_of_no_bt (by decide)]
    rfl
  have h2 : cleanLatex "'a" = "a" := by
    unfold cleanLatex cleanLatexL
    rw [fenceRemoveAll_id_of_no_bt (by decide)]
    rfl
  rw [h1, h2]
  decide

/-- C7 (amended): cleanLatex is idempotent on every string containing no
quote character (double quote, single quote, or backtick); the counterexample
shows quote characters exposed by whitespace rewriting break idempotence. -/
theorem cleanLatex_idempotent_on_quote_free (s : String)
    (hq : ∀ c ∈ s.data, isQuoteC c = false) :
    cleanLatex (cleanLatex s) = cleanLatex s :=
  congrArg String.mk (cleanLatexL_idem hq)

/-- C7 witness: idempotence at the spec's backslash-collapsing example
`\\frac{1}{2}`. -/
theorem cleanLatex_idempotent_on_quote_free_witness :
    cleanLatex (cleanLatex "\\\\frac\x7b1\x7d\x7b2\x7d") =
      cleanLatex "\\\\frac\x7b1\x7d\x7b2\x7d" :=
  cleanLatex_idempotent_on_quote_free _ (by decide)
